import Mathlib

/-!
Verification of the live-markdown-preview core of `mdpls` (src/src/asd.js).

Server side: a WebSocket broadcast server keeps a process-wide `currentFocus`
URI and a document map (the `TextDocuments` manager); `onDidOpen` and
`onDidChangeContent` set the focus and broadcast `{action, text, uri}` to every
connected client — and since the manager fires both events when a document is
opened, an open event broadcasts twice; `onDidClose` removes the document (the
handler itself only clears a settings cache and never touches the focus); the
connection handler immediately sends `{action, text}` rendered from
`documents.get(currentFocus)?.getText()`.

Client side: each message is reconciled into the `#mdText` root with
`morphdom(root, "<div>" + text + "<div>", {childrenOnly, onBeforeElUpdated,
onNodeAdded, getNodeKey: () => null})` (the embedded viewer script variant of
the client, lines 330-404 of the source).  After the reconciliation a viz.js
loop upgrades `language-graphviz` blocks.

The DOM, the browser HTML fragment parser and morphdom 2.6.1 (the pinned
version loaded by the page) are shallowly embedded below.  The embedding covers
generic elements and text nodes (no comment nodes, no void or raw-text
elements, no namespaces and none of morphdom's special form-element handlers:
none of these occur in the claims), and models DOM attribute maps as
first-key-wins association lists compared by lookup, matching
`Node.isEqualNode`'s order-insensitive attribute comparison.
-/

/-- A DOM node: an element with tag name, attributes and children, or a text
node.  Comment nodes are not modelled. -/
inductive Node where
  | elem (tag : String) (attrs : List (String × String)) (children : List Node)
  | text (s : String)

/-- `Element.getAttribute`: first binding of the name wins. -/
def getAttr (a : List (String × String)) (n : String) : Option String :=
  (a.find? (fun p => p.1 == n)).map (fun p => p.2)

/-- `Element.setAttribute`: overwrite an existing binding in place, else append. -/
def setAttr (a : List (String × String)) (n v : String) : List (String × String) :=
  if a.any (fun p => p.1 == n) then
    a.map (fun p => if p.1 == n then (n, v) else p)
  else
    a ++ [(n, v)]

/-- Attribute-map equality as `isEqualNode` sees it: the same lookup result for
every attribute name occurring on either side (order-insensitive). -/
def attrsEqual (a b : List (String × String)) : Bool :=
  (a.map Prod.fst ++ b.map Prod.fst).all (fun n => getAttr a n == getAttr b n)

mutual

/-- `Node.isEqualNode`: same node type, same tag, equal attribute maps and
pairwise equal children. -/
def nodeEqual : Node → Node → Bool
  | .text s, .text t => s == t
  | .elem tg a cs, .elem tg' a' cs' => tg == tg' && attrsEqual a a' && nodesEqual cs cs'
  | _, _ => false

/-- Pairwise `isEqualNode` on child lists. -/
def nodesEqual : List Node → List Node → Bool
  | [], [] => true
  | x :: xs, y :: ys => nodeEqual x y && nodesEqual xs ys
  | _, _ => false

end

mutual

/-- Structural shape of a node, ignoring attributes: text nodes by value,
elements by tag and (recursively) by the shapes of their children. -/
def shapeB : Node → Node → Bool
  | .text s, .text t => s == t
  | .elem tg _ cs, .elem tg' _ cs' => tg == tg' && shapesB cs cs'
  | _, _ => false

/-- Pairwise `shapeB` on child lists. -/
def shapesB : List Node → List Node → Bool
  | [], [] => true
  | x :: xs, y :: ys => shapeB x y && shapesB xs ys
  | _, _ => false

end

mutual

/-- No element anywhere in the tree carries an `open` attribute. -/
def noOpenN : Node → Bool
  | .text _ => true
  | .elem _ a cs => (getAttr a "open" == none) && noOpenList cs

/-- `noOpenN` for every node of a list. -/
def noOpenList : List Node → Bool
  | [] => true
  | x :: xs => noOpenN x && noOpenList xs

end

mutual

/-- Number of element nodes in a subtree: exactly the nodes on which
`onNodeAdded` finds a `scrollIntoView` function when the subtree is appended. -/
def elemCount : Node → Nat
  | .text _ => 0
  | .elem _ _ cs => 1 + elemCountList cs

/-- Sum of `elemCount` over a list. -/
def elemCountList : List Node → Nat
  | [] => 0
  | x :: xs => elemCount x + elemCountList xs

end

/-- The element carries an `open` attribute (`fromEl.hasAttribute('open')`). -/
def hasOpenN : Node → Bool
  | .elem _ a _ => (getAttr a "open").isSome
  | .text _ => false

/-- Observable side effects of one reconciliation pass: DOM mutations
(attribute writes, text-value writes, removals, insertions) and
`scrollIntoView` calls. -/
structure Stats where
  muts : Nat
  scrolls : Nat
deriving Repr, DecidableEq

/-- morphdom 2.6.1 `morphChildren` with the embedded client's options:
`getNodeKey: () => null` (keyless), `onBeforeElUpdated` forcing the sticky
`open` attribute onto `toEl` and returning `!fromEl.isEqualNode(toEl)` with a
`scrollIntoView` on `fromEl` when it returns `true`, a no-op `onElUpdated`, and
`onNodeAdded` scrolling every added element.  The keyless walk pairs children
in order; an incompatible from-child (different node type or tag) is removed
and the scan continues; when the from-children run out the remaining to-children
are appended (scrolling each element of the added subtree); leftover
from-children are removed at the end.  On a compatible element pair, `morphEl`
runs the hook on the adjusted `toEl`; if the hook returns `true`, `morphAttrs`
makes the attributes equal to the (adjusted) target's and the children are
morphed recursively. -/
def morphF : Nat → List Node → List Node → List Node × Stats
  | 0, _, _ => ([], ⟨0, 0⟩)
  | fuel + 1, fs0, ts0 =>
    match ts0, fs0 with
    | [], fs => ([], ⟨fs.length, 0⟩)
    | t :: ts, [] =>
        let r := morphF fuel [] ts
        (t :: r.1, ⟨r.2.muts + 1, r.2.scrolls + elemCount t⟩)
    | .text b :: ts, .text a :: fs =>
        let r := morphF fuel fs ts
        (.text b :: r.1, ⟨(if a = b then 0 else 1) + r.2.muts, r.2.scrolls⟩)
    | .elem tg' a' cs' :: ts, .elem tg a cs :: fs =>
        if tg = tg' then
          let toAdj := if (getAttr a "open").isSome then setAttr a' "open" "true" else a'
          if nodeEqual (.elem tg a cs) (.elem tg' toAdj cs') then
            let r := morphF fuel fs ts
            (Node.elem tg a cs :: r.1, r.2)
          else
            let rc := morphF fuel cs cs'
            let r := morphF fuel fs ts
            (Node.elem tg toAdj rc.1 :: r.1,
              ⟨(if attrsEqual a toAdj then 0 else 1) + rc.2.muts + r.2.muts,
               1 + rc.2.scrolls + r.2.scrolls⟩)
        else
          let r := morphF fuel fs (.elem tg' a' cs' :: ts)
          (r.1, ⟨r.2.muts + 1, r.2.scrolls⟩)
    | t :: ts, .text _ :: fs =>
        let r := morphF fuel fs (t :: ts)
        (r.1, ⟨r.2.muts + 1, r.2.scrolls⟩)
    | t :: ts, .elem _ _ _ :: fs =>
        let r := morphF fuel fs (t :: ts)
        (r.1, ⟨r.2.muts + 1, r.2.scrolls⟩)

mutual

/-- Size measure for the morphdom walk (computable, unlike the derived
`sizeOf` of the nested inductive). -/
def nodeSize : Node → Nat
  | .text _ => 1
  | .elem _ _ cs => 1 + nodesSize cs

/-- Sum of `nodeSize` plus one per list entry. -/
def nodesSize : List Node → Nat
  | [] => 0
  | x :: xs => 1 + nodeSize x + nodesSize xs

end

/-- The morphdom child walk at its natural fuel.  Every recursive call of
`morphF` strictly decreases `nodesSize fs + nodesSize ts`, so this fuel always
suffices (`morphF_fuel` below makes that precise). -/
def morphL (fs ts : List Node) : List Node × Stats :=
  morphF (nodesSize fs + nodesSize ts + 1) fs ts

/-! ## Browser HTML fragment parsing

A model of `template.innerHTML` parsing as morphdom's `toElement` uses it:
tags with attributes, text runs, auto-closing of still-open elements at end of
input, and stray close tags ignored when no matching element is open.  Void and
raw-text elements, comments, entities and single-quoted attribute values are
not modelled (none occur in the claims). -/

/-- A lexed piece of HTML: an opening tag with its attributes, a closing tag,
or a text run. -/
inductive Tok where
  | openT (tag : String) (attrs : List (String × String))
  | closeT (tag : String)
  | textT (s : String)
deriving Repr, DecidableEq

/-- Whitespace inside a tag. -/
def isSpaceC (c : Char) : Bool :=
  c == ' ' || c == '\t' || c == '\n' || c == '\r'

/-- Characters allowed in tag and attribute names. -/
def isNameChar (c : Char) : Bool :=
  !(isSpaceC c) && c != '>' && c != '/' && c != '=' && c != '<'

/-- The double-quote character. -/
def dq : Char := Char.ofNat 34

/-- Lex a name: longest prefix of name characters, and the rest. -/
def lexName (cs : List Char) : String × List Char :=
  (String.mk (cs.takeWhile isNameChar), cs.dropWhile isNameChar)

/-- Lex the attribute list of an open tag up to and including the closing `>`.
Values are double-quoted or bare; a lone name gets the empty value, as in the
DOM.  Fuel bounds the number of steps (one unit per attribute or junk char). -/
def lexAttrs : Nat → List Char → List (String × String) × List Char
  | 0, cs => ([], cs)
  | fuel + 1, cs =>
    match cs.dropWhile isSpaceC with
    | [] => ([], [])
    | c :: rest =>
      if c == '>' then ([], rest)
      else if c == '/' then lexAttrs fuel rest
      else
        let (n, r1) := lexName (c :: rest)
        if n.isEmpty then lexAttrs fuel rest
        else
          match r1 with
          | '=' :: r2 =>
            match r2 with
            | [] => ([(n, "")], [])
            | c2 :: r3 =>
              if c2 == dq then
                let v := String.mk (r3.takeWhile (fun ch => ch != dq))
                let r4 := (r3.dropWhile (fun ch => ch != dq)).drop 1
                let (as, r5) := lexAttrs fuel r4
                ((n, v) :: as, r5)
              else
                let v := String.mk ((c2 :: r3).takeWhile
                  (fun ch => !(isSpaceC ch) && ch != '>'))
                let r4 := (c2 :: r3).dropWhile (fun ch => !(isSpaceC ch) && ch != '>')
                let (as, r5) := lexAttrs fuel r4
                ((n, v) :: as, r5)
          | _ =>
            let (as, r5) := lexAttrs fuel r1
            ((n, "") :: as, r5)

/-- Lex a whole input into tokens.  Fuel bounds the token count; callers pass
the input length plus one, which always suffices since every token consumes at
least one character. -/
def lexToks : Nat → List Char → List Tok
  | 0, _ => []
  | _, [] => []
  | fuel + 1, '<' :: '/' :: rest =>
      let (n, r1) := lexName rest
      let r2 := (r1.dropWhile (fun ch => ch != '>')).drop 1
      .closeT n :: lexToks fuel r2
  | fuel + 1, '<' :: rest =>
      let (n, r1) := lexName rest
      if n.isEmpty then .textT "<" :: lexToks fuel rest
      else
        let (as, r2) := lexAttrs (fuel + 1) r1
        .openT n as :: lexToks fuel r2
  | fuel + 1, c :: rest =>
      let t := rest.takeWhile (fun ch => ch != '<')
      .textT (String.mk (c :: t)) :: lexToks fuel (rest.dropWhile (fun ch => ch != '<'))

/-- An open element still being parsed: tag, attributes and the children
collected so far (in reverse order). -/
structure Frame where
  tag : String
  attrs : List (String × String)
  rev : List Node

/-- Complete a frame into an element node. -/
def frameNode (f : Frame) : Node :=
  .elem f.tag f.attrs f.rev.reverse

/-- Attach a finished node to the innermost open element, or to the top level
when no element is open. -/
def addChild (n : Node) : List Frame → List Node → List Frame × List Node
  | [], acc => ([], acc ++ [n])
  | f :: fs, acc => ({ f with rev := n :: f.rev } :: fs, acc)

/-- Is some element with this tag still open? -/
def hasFrame (tag : String) (st : List Frame) : Bool :=
  st.any (fun f => f.tag == tag)

/-- Close frames from the inside out, `pending` being the node of the frame
just auto-closed, until a frame with the wanted tag is closed too. -/
def closeUpToAux (tag : String) (pending : Node) : List Frame → List Node → List Frame × List Node
  | [], acc => ([], acc ++ [pending])
  | f :: fs, acc =>
    let f' : Frame := { f with rev := pending :: f.rev }
    if f.tag == tag then addChild (frameNode f') fs acc
    else closeUpToAux tag (frameNode f') fs acc

/-- Process a close tag: implicitly close inner elements until the matching
one is closed.  Callers guarantee via `hasFrame` that a match exists. -/
def closeUpTo (tag : String) : List Frame → List Node → List Frame × List Node
  | [], acc => ([], acc)
  | f :: fs, acc =>
    if f.tag == tag then addChild (frameNode f) fs acc
    else closeUpToAux tag (frameNode f) fs acc

/-- End of input with at least one open element: close them all, innermost
first, `pending` being the node closed so far. -/
def flushAllAux (pending : Node) : List Frame → List Node → List Node
  | [], acc => acc ++ [pending]
  | f :: fs, acc => flushAllAux (frameNode { f with rev := pending :: f.rev }) fs acc

/-- End of input: every still-open element is closed implicitly. -/
def flushAll : List Frame → List Node → List Node
  | [], acc => acc
  | f :: fs, acc => flushAllAux (frameNode f) fs acc

/-- Build the node forest from a token stream. -/
def buildToks : List Tok → List Frame → List Node → List Node
  | [], st, acc => flushAll st acc
  | .textT s :: rest, st, acc =>
      let (st', ac') := addChild (.text s) st acc
      buildToks rest st' ac'
  | .openT n as :: rest, st, acc => buildToks rest (⟨n, as, []⟩ :: st) acc
  | .closeT n :: rest, st, acc =>
      if hasFrame n st then
        let (st', ac') := closeUpTo n st acc
        buildToks rest st' ac'
      else buildToks rest st acc

/-- Parse an HTML string into the fragment's top-level node list
(`template.content.childNodes`). -/
def parseFragment (s : String) : List Node :=
  buildToks (lexToks (s.length + 1) s.toList) [] []

/-! ## The client message handler -/

/-- The string the client hands to morphdom: `"<div>" + received.text + "<div>"`
— note the terminating tag is a second *opening* div, not a closing one. -/
def wrapHtml (text : String) : String :=
  "<div>" ++ text ++ "<div>"

/-- morphdom's `toElement`: parse the string and take the first parsed node
(`template.content.childNodes[0]`).  For the wrapped string the fragment always
starts with the `<div>` element, so the default is never used. -/
def toTarget (text : String) : Node :=
  (parseFragment (wrapHtml text)).headD (.elem "div" [] [])

/-- Children of a node (empty for text nodes). -/
def childrenOf : Node → List Node
  | .elem _ _ cs => cs
  | .text _ => []

/-- One `ws.onmessage` reconciliation: morph the live root against the wrapped
target with `childrenOnly: true`, so only the root's child list is walked and
the root element itself is untouched.  Returns the new live tree and the
mutation/scroll statistics of the pass. -/
def handleMessage (root : Node) (text : String) : Node × Stats :=
  match root, toTarget text with
  | .elem tg a cs, .elem _ _ tcs =>
      let r := morphL cs tcs
      (.elem tg a r.1, r.2)
  | r, _ => (r, ⟨0, 0⟩)

/-- Reconciliation of a whole stream of received messages in order. -/
def reconcileAll (root : Node) (msgs : List String) : Node :=
  msgs.foldl (fun r t => (handleMessage r t).1) root

/-! ## The server: focus tracking and broadcast

The renderer (`markdown-it`'s `md.render`) is an external collaborator and is
kept abstract as a function `r : Option String → String`; the broadcast
handlers always call it on `some text` (`change.document.getText()` is a
string there), while the connection handler calls it on
`documents.get(currentFocus)?.getText()`, which is `none`/`undefined` when no
document with the focused URI is open. -/

/-- The wire message.  `uri` is optional because the connection-time send in
`wss.on("connection")` builds its JSON object without a `uri` field. -/
structure Msg where
  action : String
  text : String
  uri : Option String
deriving Repr, DecidableEq

/-- Server state: the `currentFocus` variable, the `TextDocuments` map from
URI to current text, and the identities of the connected WebSocket clients. -/
structure ServerState where
  currentFocus : String
  docs : List (String × String)
  clients : List Nat
deriving Repr, DecidableEq

/-- Map update used by the `TextDocuments` manager on open/change. -/
def setDoc (docs : List (String × String)) (u t : String) : List (String × String) :=
  (u, t) :: docs.filter (fun p => p.1 != u)

/-- Map removal used by the `TextDocuments` manager on close. -/
def delDoc (docs : List (String × String)) (u : String) : List (String × String) :=
  docs.filter (fun p => p.1 != u)

/-- `documents.get(uri)?.getText()`. -/
def lookupDoc (docs : List (String × String)) (u : String) : Option String :=
  (docs.find? (fun p => p.1 == u)).map (fun p => p.2)

/-- The three editor lifecycle events consumed from the protocol layer. -/
inductive DocEvent where
  | openDoc (uri text : String)
  | changeDoc (uri text : String)
  | closeDoc (uri : String)

/-- One document event: the `TextDocuments` manager updates the map, then the
registered handlers run.  The manager fires BOTH `onDidOpen` and
`onDidChangeContent` when a document is opened (the repository's own comment
before `validateTextDocument` records this: "This event is emitted when the
text document first opened or when its content has changed"), so an open event
runs both registered broadcast handlers in sequence — each sets `currentFocus`
and sends `{action: "update", text: md.render(getText()), uri}` to every
connected client, producing two identical broadcast batches.  A content change
fires only `onDidChangeContent` — one batch.  `onDidClose` only removes the
document: the handler body merely deletes a settings-cache entry and never
writes `currentFocus` or sends anything. -/
def stepEvent (r : Option String → String) (e : DocEvent) (s : ServerState) :
    ServerState × List (Nat × Msg) :=
  match e with
  | .openDoc u t =>
      ({ s with currentFocus := u, docs := setDoc s.docs u t },
       s.clients.map (fun c => (c, ⟨"update", r (some t), some u⟩))
         ++ s.clients.map (fun c => (c, ⟨"update", r (some t), some u⟩)))
  | .changeDoc u t =>
      ({ s with currentFocus := u, docs := setDoc s.docs u t },
       s.clients.map (fun c => (c, ⟨"update", r (some t), some u⟩)))
  | .closeDoc u =>
      ({ s with docs := delDoc s.docs u }, [])

/-- The message built inside `wss.on("connection")`: rendered from the
current-focus lookup (possibly `none`), with no `uri` field. -/
def connectMsg (r : Option String → String) (s : ServerState) : Msg :=
  ⟨"update", r (lookupDoc s.docs s.currentFocus), none⟩

/-- Everything the connection handler sends to a brand-new client before any
further document event: exactly the one backfill message. -/
def connectSends (r : Option String → String) (s : ServerState) : List Msg :=
  [connectMsg r s]

/-- The broadcast-policy query for the focused document's text. -/
def focusQuery (s : ServerState) : Option String :=
  lookupDoc s.docs s.currentFocus

/-- Server state at process start: `currentFocus = ""`, no documents, no clients. -/
def initState : ServerState :=
  ⟨"", [], []⟩

/-! ## The diagram upgrader

The client's post-reconciliation pass is

```
try {
    let viz = new window.Viz();
    for (let element of markdownBody.getElementsByClassName("language-graphviz")) {
      viz.renderSVGElement(element.textContent).then(function(newEl) { ... });
    }
} catch (error) { console.error(error) }
```

Per block, `viz.renderSVGElement` either returns a promise that resolves, or a
promise that rejects, or throws synchronously.  On the single-threaded event
loop this means: the for loop issues one render request per block in order; a
synchronous throw aborts the loop (later blocks get no request) and is logged
once by the catch; a rejected promise has no rejection handler attached, so it
becomes an unhandled rejection — nothing in this code catches or logs it and
the block's source element stays in place; a resolved promise replaces the
block's parent node. -/

/-- Outcome of one `viz.renderSVGElement` call. -/
inductive VizOutcome where
  | resolves
  | rejects
  | throwsSync
deriving Repr, DecidableEq

/-- Observable outcome of one upgrade pass over the graphviz blocks in
document order. -/
structure UpgradeTrace where
  requested : Nat
  replaced : Nat
  logged : Nat
  unhandledRejections : Nat
deriving Repr, DecidableEq

/-- The upgrade pass over the blocks' render outcomes, in document order. -/
def diagramUpgrade : List VizOutcome → UpgradeTrace
  | [] => ⟨0, 0, 0, 0⟩
  | b :: bs =>
    match b with
    | .throwsSync => ⟨1, 0, 1, 0⟩
    | .resolves =>
        let r := diagramUpgrade bs
        ⟨r.requested + 1, r.replaced + 1, r.logged, r.unhandledRejections⟩
    | .rejects =>
        let r := diagramUpgrade bs
        ⟨r.requested + 1, r.replaced, r.logged, r.unhandledRejections + 1⟩

/-- Shallow compatibility, as morphdom's keyless matcher decides it: same node
type and, for elements, the same tag. -/
def compatShallow : Node → Node → Bool
  | .text _, .text _ => true
  | .elem tg _ _, .elem tg' _ _ => tg == tg'
  | _, _ => false

/-- The live children and the target children are pairwise compatible up to the
shorter length, so the keyless walk matches them positionally. -/
def alignedB : List Node → List Node → Bool
  | _, [] => true
  | [], _ => true
  | f :: fs, t :: ts => compatShallow f t && alignedB fs ts

/-- The node reached from a child list by a nonempty path of child indexes:
`i :: p` selects the `i`-th child and, when the path continues, descends
through that child's element children. -/
def nodeAt : List Node → List Nat → Option Node
  | _, [] => none
  | fs, i :: p =>
    match fs.get? i with
    | none => none
    | some n =>
      match p with
      | [] => some n
      | _ :: _ =>
        match n with
        | .elem _ _ cs => nodeAt cs p
        | .text _ => none

/-- There is an element at the path and it carries the `open` attribute. -/
def hasOpenAt (fs : List Node) (p : List Nat) : Bool :=
  match nodeAt fs p with
  | some n => hasOpenN n
  | none => false

/-- Positional alignment along a whole path: at every level down the path the
live and target child lists are pairwise compatible up to the shorter length
(so the keyless walk matches them index-wise), the path index is in range on
both sides, and — when the path descends further — both selected children are
elements. -/
def alignedAt : List Node → List Node → List Nat → Bool
  | _, _, [] => true
  | fs, ts, i :: p =>
    alignedB fs ts && decide (i < fs.length) && decide (i < ts.length) &&
    (match p with
     | [] => true
     | _ :: _ =>
       match fs.getD i (.text ""), ts.getD i (.text "") with
       | .elem _ _ cs, .elem _ _ cs' => alignedAt cs cs' p
       | _, _ => false)

/-- Termination measure for path recursion: descending into a child drops the
whole head index, stepping past a sibling drops one unit of it. -/
def pathWeight : List Nat → Nat
  | [] => 0
  | i :: p => i + 1 + pathWeight p

/-! ## Unfolding equations for the morphdom walk -/

/-- The morphdom walk is fuel-irrelevant above its measure. -/
theorem morphF_fuel : ∀ (n m : Nat) (fs ts : List Node),
    nodesSize fs + nodesSize ts < n → nodesSize fs + nodesSize ts < m →
    morphF n fs ts = morphF m fs ts := by
  intro n
  induction n with
  | zero => intro m fs ts hn _; omega
  | succ n ih =>
    intro m fs ts hn hm
    cases m with
    | zero => omega
    | succ m =>
      cases ts with
      | nil => rfl
      | cons t ts =>
        cases fs with
        | nil =>
          simp only [morphF]
          rw [ih m [] ts (by simp only [nodesSize] at hn ⊢; omega)
            (by simp only [nodesSize] at hm ⊢; omega)]
        | cons f fs =>
          cases f with
          | text a =>
            cases t with
            | text b =>
              simp only [morphF]
              rw [ih m fs ts
                (by simp only [nodesSize] at hn ⊢; omega)
                (by simp only [nodesSize] at hm ⊢; omega)]
            | elem tg' a' cs' =>
              simp only [morphF]
              rw [ih m fs (.elem tg' a' cs' :: ts)
                (by simp only [nodesSize] at hn ⊢; omega)
                (by simp only [nodesSize] at hm ⊢; omega)]
          | elem tg a cs =>
            cases t with
            | text b =>
              simp only [morphF]
              rw [ih m fs (.text b :: ts)
                (by simp only [nodesSize] at hn ⊢; omega)
                (by simp only [nodesSize] at hm ⊢; omega)]
            | elem tg' a' cs' =>
              simp only [morphF]
              by_cases htg : tg = tg'
              · simp only [if_pos htg]
                rw [ih m cs cs'
                  (by simp only [nodesSize, nodeSize] at hn ⊢; omega)
                  (by simp only [nodesSize, nodeSize] at hm ⊢; omega)]
                rw [ih m fs ts
                  (by simp only [nodesSize] at hn ⊢; omega)
                  (by simp only [nodesSize] at hm ⊢; omega)]
              · simp only [if_neg htg]
                rw [ih m fs (.elem tg' a' cs' :: ts)
                  (by simp only [nodesSize] at hn ⊢; omega)
                  (by simp only [nodesSize] at hm ⊢; omega)]

/-- Any sufficient fuel computes `morphL`. -/
theorem morphF_to_morphL (k : Nat) (fs ts : List Node)
    (h : nodesSize fs + nodesSize ts < k) : morphF k fs ts = morphL fs ts :=
  morphF_fuel k (nodesSize fs + nodesSize ts + 1) fs ts h (Nat.lt_succ_self _)

theorem morphL_to_nil (fs : List Node) : morphL fs [] = ([], ⟨fs.length, 0⟩) := rfl

theorem morphL_nil_cons (t : Node) (ts : List Node) :
    morphL [] (t :: ts) =
      (t :: (morphL [] ts).1,
       ⟨(morphL [] ts).2.muts + 1, (morphL [] ts).2.scrolls + elemCount t⟩) := by
  rw [morphL]
  simp only [morphF]
  rw [morphF_to_morphL _ [] ts (by simp only [nodesSize]; omega)]

theorem morphL_tt (a b : String) (fs ts : List Node) :
    morphL (.text a :: fs) (.text b :: ts) =
      (.text b :: (morphL fs ts).1,
       ⟨(if a = b then 0 else 1) + (morphL fs ts).2.muts, (morphL fs ts).2.scrolls⟩) := by
  rw [morphL]
  simp only [morphF]
  rw [morphF_to_morphL _ fs ts (by simp only [nodesSize]; omega)]

theorem morphL_te (a : String) (fs : List Node) (tg' : String)
    (a' : List (String × String)) (cs' ts : List Node) :
    morphL (.text a :: fs) (.elem tg' a' cs' :: ts) =
      ((morphL fs (.elem tg' a' cs' :: ts)).1,
       ⟨(morphL fs (.elem tg' a' cs' :: ts)).2.muts + 1,
        (morphL fs (.elem tg' a' cs' :: ts)).2.scrolls⟩) := by
  rw [morphL]
  simp only [morphF]
  rw [morphF_to_morphL _ fs (.elem tg' a' cs' :: ts) (by simp only [nodesSize]; omega)]

theorem morphL_et (tg : String) (a : List (String × String)) (cs fs : List Node)
    (b : String) (ts : List Node) :
    morphL (.elem tg a cs :: fs) (.text b :: ts) =
      ((morphL fs (.text b :: ts)).1,
       ⟨(morphL fs (.text b :: ts)).2.muts + 1,
        (morphL fs (.text b :: ts)).2.scrolls⟩) := by
  rw [morphL]
  simp only [morphF]
  rw [morphF_to_morphL _ fs (.text b :: ts) (by simp only [nodesSize]; omega)]

theorem morphL_ee (tg : String) (a : List (String × String)) (cs fs : List Node)
    (tg' : String) (a' : List (String × String)) (cs' ts : List Node) :
    morphL (.elem tg a cs :: fs) (.elem tg' a' cs' :: ts) =
      if tg = tg' then
        (if nodeEqual (.elem tg a cs)
            (.elem tg' (if (getAttr a "open").isSome then setAttr a' "open" "true" else a') cs') then
          (Node.elem tg a cs :: (morphL fs ts).1, (morphL fs ts).2)
        else
          (Node.elem tg (if (getAttr a "open").isSome then setAttr a' "open" "true" else a')
              (morphL cs cs').1 :: (morphL fs ts).1,
            ⟨(if attrsEqual a
                  (if (getAttr a "open").isSome then setAttr a' "open" "true" else a') then 0 else 1)
                + (morphL cs cs').2.muts + (morphL fs ts).2.muts,
             1 + (morphL cs cs').2.scrolls + (morphL fs ts).2.scrolls⟩))
      else
        ((morphL fs (.elem tg' a' cs' :: ts)).1,
         ⟨(morphL fs (.elem tg' a' cs' :: ts)).2.muts + 1,
          (morphL fs (.elem tg' a' cs' :: ts)).2.scrolls⟩) := by
  rw [morphL]
  simp only [morphF]
  rw [morphF_to_morphL _ cs cs' (by simp only [nodesSize, nodeSize]; omega)]
  rw [morphF_to_morphL _ fs ts (by simp only [nodesSize, nodeSize]; omega)]
  rw [morphF_to_morphL _ fs (.elem tg' a' cs' :: ts) (by simp only [nodesSize, nodeSize]; omega)]

/-! ## Attribute-map lemmas -/

theorem attrsEqual_refl (a : List (String × String)) : attrsEqual a a = true := by
  simp [attrsEqual, List.all_eq_true]

theorem getAttr_not_mem {a : List (String × String)} {n : String}
    (h : n ∉ a.map Prod.fst) : getAttr a n = none := by
  rw [getAttr, List.find?_eq_none.mpr, Option.map_none']
  intro p hp
  simp only [beq_iff_eq]
  intro he
  exact h (List.mem_map.mpr ⟨p, hp, he⟩)

theorem getAttr_eq_of_attrsEqual {a b : List (String × String)}
    (h : attrsEqual a b = true) (n : String) : getAttr a n = getAttr b n := by
  have h' := List.all_eq_true.mp h
  by_cases ha : n ∈ a.map Prod.fst
  · exact eq_of_beq (h' n (List.mem_append.mpr (Or.inl ha)))
  · by_cases hb : n ∈ b.map Prod.fst
    · exact eq_of_beq (h' n (List.mem_append.mpr (Or.inr hb)))
    · rw [getAttr_not_mem ha, getAttr_not_mem hb]

theorem getAttr_setAttr_self (a : List (String × String)) (n v : String) :
    getAttr (setAttr a n v) n = some v := by
  rw [setAttr]
  split
  next h =>
    induction a with
    | nil => simp at h
    | cons p t ih =>
      by_cases hp : p.1 == n
      · simp only [List.map_cons, if_pos hp]
        rw [getAttr, List.find?_cons]
        simp
      · have ht : t.any (fun q => q.1 == n) = true := by
          simp only [List.any_cons, hp, Bool.false_or] at h
          exact h
        have hp' : (p.1 == n) = false := by simpa using hp
        simp only [List.map_cons, if_neg hp]
        rw [getAttr, List.find?_cons]
        simp only [hp', cond_false]
        rw [getAttr] at ih
        exact ih ht
  next h =>
    have hnone : a.find? (fun p => p.1 == n) = none := by
      rw [List.find?_eq_none]
      intro p hp hpn
      exact h (List.any_eq_true.mpr ⟨p, hp, hpn⟩)
    rw [getAttr, List.find?_append, hnone]
    simp

/-! ## Node-level helper lemmas -/

mutual

theorem nodeEqual_refl (x : Node) : nodeEqual x x = true := by
  cases x with
  | text s => simp [nodeEqual]
  | elem tg a cs => simp [nodeEqual, attrsEqual_refl, nodesEqual_refl cs]
termination_by nodeSize x
decreasing_by all_goals (subst_vars; simp [nodeSize, nodesSize]; try omega)

theorem nodesEqual_refl (l : List Node) : nodesEqual l l = true := by
  cases l with
  | nil => rfl
  | cons x xs => simp [nodesEqual, nodeEqual_refl x, nodesEqual_refl xs]
termination_by nodesSize l
decreasing_by all_goals (subst_vars; simp [nodeSize, nodesSize]; try omega)

end

mutual

theorem shapeB_refl (x : Node) : shapeB x x = true := by
  cases x with
  | text s => simp [shapeB]
  | elem tg a cs => simp [shapeB, shapesB_refl cs]
termination_by nodeSize x
decreasing_by all_goals (subst_vars; simp [nodeSize, nodesSize]; try omega)

theorem shapesB_refl (l : List Node) : shapesB l l = true := by
  cases l with
  | nil => rfl
  | cons x xs => simp [shapesB, shapeB_refl x, shapesB_refl xs]
termination_by nodesSize l
decreasing_by all_goals (subst_vars; simp [nodeSize, nodesSize]; try omega)

end

mutual

theorem shapeB_of_nodeEqual (x y : Node) (h : nodeEqual x y = true) : shapeB x y = true := by
  cases x with
  | text s =>
    cases y with
    | text t => simpa [nodeEqual, shapeB] using h
    | elem tg' a' cs' => simp [nodeEqual] at h
  | elem tg a cs =>
    cases y with
    | text t => simp [nodeEqual] at h
    | elem tg' a' cs' =>
      simp only [nodeEqual, Bool.and_eq_true] at h
      simp [shapeB, h.1.1, shapesB_of_nodesEqual cs cs' h.2]
termination_by nodeSize x
decreasing_by all_goals (subst_vars; simp [nodeSize, nodesSize]; try omega)

theorem shapesB_of_nodesEqual (xs ys : List Node) (h : nodesEqual xs ys = true) :
    shapesB xs ys = true := by
  cases xs with
  | nil => cases ys with
    | nil => rfl
    | cons y ys => simp [nodesEqual] at h
  | cons x xs =>
    cases ys with
    | nil => simp [nodesEqual] at h
    | cons y ys =>
      simp only [nodesEqual, Bool.and_eq_true] at h
      simp [shapesB, shapeB_of_nodeEqual x y h.1, shapesB_of_nodesEqual xs ys h.2]
termination_by nodesSize xs
decreasing_by all_goals (subst_vars; simp [nodeSize, nodesSize]; try omega)

end

mutual

theorem noOpenN_of_equal (x y : Node) (h : nodeEqual x y = true) (hy : noOpenN y = true) :
    noOpenN x = true := by
  cases x with
  | text s => simp [noOpenN]
  | elem tg a cs =>
    cases y with
    | text t => simp [nodeEqual] at h
    | elem tg' a' cs' =>
      simp only [nodeEqual, Bool.and_eq_true] at h
      simp only [noOpenN, Bool.and_eq_true] at hy ⊢
      refine ⟨?_, noOpenList_of_equal cs cs' h.2 hy.2⟩
      rw [getAttr_eq_of_attrsEqual h.1.2]
      exact hy.1
termination_by nodeSize x
decreasing_by all_goals (subst_vars; simp [nodeSize, nodesSize]; try omega)

theorem noOpenList_of_equal (xs ys : List Node) (h : nodesEqual xs ys = true)
    (hy : noOpenList ys = true) : noOpenList xs = true := by
  cases xs with
  | nil => rfl
  | cons x xs =>
    cases ys with
    | nil => simp [nodesEqual] at h
    | cons y ys =>
      simp only [nodesEqual, Bool.and_eq_true] at h
      simp only [noOpenList, Bool.and_eq_true] at hy ⊢
      exact ⟨noOpenN_of_equal x y h.1 hy.1, noOpenList_of_equal xs ys h.2 hy.2⟩
termination_by nodesSize xs
decreasing_by all_goals (subst_vars; simp [nodeSize, nodesSize]; try omega)

end

theorem shapesB_length (xs : List Node) : ∀ ys : List Node, shapesB xs ys = true →
    xs.length = ys.length := by
  induction xs with
  | nil => intro ys h; cases ys with
    | nil => rfl
    | cons y ys => simp [shapesB] at h
  | cons x xs ih =>
    intro ys h
    cases ys with
    | nil => simp [shapesB] at h
    | cons y ys =>
      simp only [shapesB, Bool.and_eq_true] at h
      simp [ih ys h.2]

/-! ## Main structural lemmas about the morphdom walk -/

/-- The reconciled child list always takes the structural shape of the target
child list (tags, node types, text values and child counts, at every depth). -/
theorem morphL_shape (fs ts : List Node) : shapesB (morphL fs ts).1 ts = true := by
  cases ts with
  | nil => rw [morphL_to_nil]; rfl
  | cons t ts =>
    cases fs with
    | nil =>
      rw [morphL_nil_cons]
      show shapesB (t :: (morphL [] ts).1) (t :: ts) = true
      simp [shapesB, shapeB_refl t, morphL_shape [] ts]
    | cons f fs =>
      cases f with
      | text a =>
        cases t with
        | text b =>
          rw [morphL_tt]
          show shapesB (.text b :: (morphL fs ts).1) (.text b :: ts) = true
          simp [shapesB, shapeB, morphL_shape fs ts]
        | elem tg' a' cs' =>
          rw [morphL_te]
          show shapesB (morphL fs (.elem tg' a' cs' :: ts)).1 (.elem tg' a' cs' :: ts) = true
          exact morphL_shape fs (.elem tg' a' cs' :: ts)
      | elem tg a cs =>
        cases t with
        | text b =>
          rw [morphL_et]
          show shapesB (morphL fs (.text b :: ts)).1 (.text b :: ts) = true
          exact morphL_shape fs (.text b :: ts)
        | elem tg' a' cs' =>
          rw [morphL_ee]
          by_cases htg : tg = tg'
          · rw [if_pos htg]
            by_cases heq : nodeEqual (.elem tg a cs)
                (.elem tg' (if (getAttr a "open").isSome then setAttr a' "open" "true" else a')
                  cs') = true
            · rw [if_pos heq]
              have hs := shapeB_of_nodeEqual _ _ heq
              simp only [shapeB, Bool.and_eq_true] at hs
              show shapesB (Node.elem tg a cs :: (morphL fs ts).1)
                (.elem tg' a' cs' :: ts) = true
              simp [shapesB, shapeB, hs.1, hs.2, morphL_shape fs ts]
            · rw [if_neg heq]
              show shapesB (Node.elem tg
                  (if (getAttr a "open").isSome then setAttr a' "open" "true" else a')
                  (morphL cs cs').1 :: (morphL fs ts).1) (.elem tg' a' cs' :: ts) = true
              simp [shapesB, shapeB, htg, morphL_shape cs cs', morphL_shape fs ts]
          · rw [if_neg htg]
            exact morphL_shape fs (.elem tg' a' cs' :: ts)
termination_by nodesSize fs + nodesSize ts
decreasing_by all_goals (subst_vars; simp [nodeSize, nodesSize]; try omega)

/-- With no `open` attribute anywhere (so the sticky-open hook never adjusts
the target), one pass makes the live children `isEqualNode`-equal to the
target children. -/
theorem morphL_exact (fs ts : List Node) (hf : noOpenList fs = true)
    (ht : noOpenList ts = true) : nodesEqual (morphL fs ts).1 ts = true := by
  cases ts with
  | nil => rw [morphL_to_nil]; rfl
  | cons t ts =>
    simp only [noOpenList, Bool.and_eq_true] at ht
    cases fs with
    | nil =>
      rw [morphL_nil_cons]
      show nodesEqual (t :: (morphL [] ts).1) (t :: ts) = true
      simp [nodesEqual, nodeEqual_refl t, morphL_exact [] ts rfl ht.2]
    | cons f fs =>
      simp only [noOpenList, Bool.and_eq_true] at hf
      cases f with
      | text a =>
        cases t with
        | text b =>
          rw [morphL_tt]
          show nodesEqual (.text b :: (morphL fs ts).1) (.text b :: ts) = true
          simp [nodesEqual, nodeEqual, morphL_exact fs ts hf.2 ht.2]
        | elem tg' a' cs' =>
          rw [morphL_te]
          exact morphL_exact fs (.elem tg' a' cs' :: ts) hf.2
            (by simp [noOpenList, ht.1, ht.2])
      | elem tg a cs =>
        have hopen : getAttr a "open" = none := by
          have := hf.1
          simp only [noOpenN, Bool.and_eq_true] at this
          simpa using this.1
        have hcs : noOpenList cs = true := by
          have := hf.1
          simp only [noOpenN, Bool.and_eq_true] at this
          exact this.2
        have hIsSome : (getAttr a "open").isSome = false := by rw [hopen]; rfl
        cases t with
        | text b =>
          rw [morphL_et]
          exact morphL_exact fs (.text b :: ts) hf.2 (by simp [noOpenList, ht.1, ht.2])
        | elem tg' a' cs' =>
          have hcs' : noOpenList cs' = true := by
            have := ht.1
            simp only [noOpenN, Bool.and_eq_true] at this
            exact this.2
          rw [morphL_ee]
          simp only [hIsSome, Bool.false_eq_true, if_false]
          by_cases htg : tg = tg'
          · rw [if_pos htg]
            by_cases heq : nodeEqual (.elem tg a cs) (.elem tg' a' cs') = true
            · rw [if_pos heq]
              show nodesEqual (Node.elem tg a cs :: (morphL fs ts).1)
                (.elem tg' a' cs' :: ts) = true
              simp [nodesEqual, heq, morphL_exact fs ts hf.2 ht.2]
            · rw [if_neg heq]
              show nodesEqual (Node.elem tg a' (morphL cs cs').1 :: (morphL fs ts).1)
                (.elem tg' a' cs' :: ts) = true
              simp [nodesEqual, nodeEqual, htg, attrsEqual_refl,
                morphL_exact cs cs' hcs hcs', morphL_exact fs ts hf.2 ht.2]
          · rw [if_neg htg]
            exact morphL_exact fs (.elem tg' a' cs' :: ts) hf.2
              (by simp [noOpenList, ht.1, ht.2])
termination_by nodesSize fs + nodesSize ts
decreasing_by all_goals (subst_vars; simp [nodeSize, nodesSize]; try omega)

/-- A pass over a live child list that is already `isEqualNode`-equal to the
target and carries no `open` attribute is a strict no-op: the tree is returned
unchanged with zero mutations and zero scrolls. -/
theorem morphL_noop (fs ts : List Node) (h : nodesEqual fs ts = true)
    (hf : noOpenList fs = true) : morphL fs ts = (fs, ⟨0, 0⟩) := by
  cases ts with
  | nil =>
    cases fs with
    | nil => rw [morphL_to_nil]; simp
    | cons f fs => simp [nodesEqual] at h
  | cons t ts =>
    cases fs with
    | nil => simp [nodesEqual] at h
    | cons f fs =>
      simp only [nodesEqual, Bool.and_eq_true] at h
      simp only [noOpenList, Bool.and_eq_true] at hf
      cases f with
      | text a =>
        cases t with
        | text b =>
          have hab : a = b := by
            have := h.1
            simpa [nodeEqual] using this
          rw [morphL_tt, morphL_noop fs ts h.2 hf.2]
          subst hab
          simp
        | elem tg' a' cs' => simp [nodeEqual] at h
      | elem tg a cs =>
        cases t with
        | text b => simp [nodeEqual] at h
        | elem tg' a' cs' =>
          have h1 := h.1
          simp only [nodeEqual, Bool.and_eq_true] at h1
          have hopen : getAttr a "open" = none := by
            have := hf.1
            simp only [noOpenN, Bool.and_eq_true] at this
            simpa using this.1
          have hIsSome : (getAttr a "open").isSome = false := by rw [hopen]; rfl
          rw [morphL_ee]
          simp only [hIsSome, Bool.false_eq_true, if_false]
          rw [if_pos (eq_of_beq h1.1.1), if_pos h.1, morphL_noop fs ts h.2 hf.2]
termination_by nodesSize fs + nodesSize ts
decreasing_by all_goals (subst_vars; simp [nodeSize, nodesSize]; try omega)

/-- When live and target children are positionally compatible, a live element
carrying the `open` attribute still carries it after the pass (the sticky-open
hook forces it onto the target before any update). -/
theorem morphL_keep (fs ts : List Node) (i : Nat) (ha : alignedB fs ts = true)
    (hif : i < fs.length) (hit : i < ts.length)
    (ho : hasOpenN (fs.getD i (.text "")) = true) :
    hasOpenN ((morphL fs ts).1.getD i (.text "")) = true := by
  cases ts with
  | nil => simp at hit
  | cons t ts =>
    cases fs with
    | nil => simp at hif
    | cons f fs =>
      simp only [alignedB, Bool.and_eq_true] at ha
      cases i with
      | zero =>
        simp only [List.getD_cons_zero] at ho
        cases f with
        | text a => simp [hasOpenN] at ho
        | elem tg a cs =>
          cases t with
          | text b => simp [compatShallow] at ha
          | elem tg' a' cs' =>
            have htg : tg = tg' := by
              have := ha.1
              simpa [compatShallow] using this
            have hIsSome : (getAttr a "open").isSome = true := by
              simpa [hasOpenN] using ho
            rw [morphL_ee, if_pos htg]
            simp only [hIsSome, if_true]
            by_cases heq : nodeEqual (.elem tg a cs)
                (.elem tg' (setAttr a' "open" "true") cs') = true
            · rw [if_pos heq]
              simpa [hasOpenN] using ho
            · rw [if_neg heq]
              simp [hasOpenN, getAttr_setAttr_self]
      | succ i =>
        simp only [List.getD_cons_succ] at ho
        have hif' : i < fs.length := by simpa using Nat.lt_of_succ_lt_succ hif
        have hit' : i < ts.length := by simpa using Nat.lt_of_succ_lt_succ hit
        cases f with
        | text a =>
          cases t with
          | text b =>
            rw [morphL_tt]
            simp only [List.getD_cons_succ]
            exact morphL_keep fs ts i ha.2 hif' hit' ho
          | elem tg' a' cs' => simp [compatShallow] at ha
        | elem tg a cs =>
          cases t with
          | text b => simp [compatShallow] at ha
          | elem tg' a' cs' =>
            have htg : tg = tg' := by
              have := ha.1
              simpa [compatShallow] using this
            rw [morphL_ee, if_pos htg]
            by_cases heq : nodeEqual (.elem tg a cs)
                (.elem tg' (if (getAttr a "open").isSome then setAttr a' "open" "true" else a')
                  cs') = true
            · rw [if_pos heq]
              show hasOpenN ((Node.elem tg a cs :: (morphL fs ts).1).getD (i + 1)
                (.text "")) = true
              rw [List.getD_cons_succ]
              exact morphL_keep fs ts i ha.2 hif' hit' ho
            · rw [if_neg heq]
              show hasOpenN ((Node.elem tg
                  (if (getAttr a "open").isSome then setAttr a' "open" "true" else a')
                  (morphL cs cs').1 :: (morphL fs ts).1).getD (i + 1) (.text "")) = true
              rw [List.getD_cons_succ]
              exact morphL_keep fs ts i ha.2 hif' hit' ho
termination_by i

/-- Shifting one child off both the list and the path head leaves the located
node unchanged. -/
theorem nodeAt_cons_succ (f : Node) (fs : List Node) (i : Nat) (p : List Nat) :
    nodeAt (f :: fs) ((i + 1) :: p) = nodeAt fs (i :: p) := by
  simp only [nodeAt, List.get?_cons_succ]

/-- `nodeAt_cons_succ` lifted to the open-attribute check. -/
theorem hasOpenAt_cons_succ (f : Node) (fs : List Node) (i : Nat) (p : List Nat) :
    hasOpenAt (f :: fs) ((i + 1) :: p) = hasOpenAt fs (i :: p) := by
  rw [hasOpenAt, hasOpenAt, nodeAt_cons_succ]

/-- Deep sticky-open preservation: along any positionally aligned path into
the live tree, an element carrying the `open` attribute still carries it after
the pass.  An ancestor pair the hook skips (deep-equal after adjustment)
leaves the whole live subtree untouched; an updated ancestor recurses into its
children, where the keyless walk again matches positionally. -/
theorem morphL_keep_deep (fs ts : List Node) (p : List Nat)
    (ha : alignedAt fs ts p = true) (ho : hasOpenAt fs p = true) :
    hasOpenAt (morphL fs ts).1 p = true := by
  cases p with
  | nil => simp [hasOpenAt, nodeAt] at ho
  | cons i p =>
    simp only [alignedAt, Bool.and_eq_true, decide_eq_true_eq] at ha
    obtain ⟨⟨⟨hab, hif⟩, hit⟩, hrest⟩ := ha
    cases ts with
    | nil => simp at hit
    | cons t ts =>
      cases fs with
      | nil => simp at hif
      | cons f fs =>
        simp only [alignedB, Bool.and_eq_true] at hab
        cases i with
        | zero =>
          cases f with
          | text a =>
            cases p with
            | nil => simp [hasOpenAt, nodeAt, hasOpenN] at ho
            | cons j q => simp [hasOpenAt, nodeAt] at ho
          | elem tg a cs =>
            cases t with
            | text b => simp [compatShallow] at hab
            | elem tg' a' cs' =>
              have htg : tg = tg' := by
                have := hab.1
                simpa [compatShallow] using this
              rw [morphL_ee, if_pos htg]
              cases p with
              | nil =>
                have ho' : hasOpenN (Node.elem tg a cs) = true := by
                  simpa [hasOpenAt, nodeAt] using ho
                have hIsSome : (getAttr a "open").isSome = true := by
                  simpa [hasOpenN] using ho'
                simp only [hIsSome, if_true]
                by_cases heq : nodeEqual (.elem tg a cs)
                    (.elem tg' (setAttr a' "open" "true") cs') = true
                · rw [if_pos heq]
                  show hasOpenAt (Node.elem tg a cs :: (morphL fs ts).1) [0] = true
                  simpa [hasOpenAt, nodeAt] using ho'
                · rw [if_neg heq]
                  show hasOpenAt (Node.elem tg (setAttr a' "open" "true")
                      (morphL cs cs').1 :: (morphL fs ts).1) [0] = true
                  simp [hasOpenAt, nodeAt, hasOpenN, getAttr_setAttr_self]
              | cons j q =>
                have hcc : alignedAt cs cs' (j :: q) = true := by
                  simpa using hrest
                have ho' : hasOpenAt cs (j :: q) = true := by
                  simpa [hasOpenAt, nodeAt] using ho
                by_cases heq : nodeEqual (.elem tg a cs)
                    (.elem tg' (if (getAttr a "open").isSome then
                      setAttr a' "open" "true" else a') cs') = true
                · rw [if_pos heq]
                  show hasOpenAt (Node.elem tg a cs :: (morphL fs ts).1)
                    (0 :: j :: q) = true
                  simpa [hasOpenAt, nodeAt] using ho'
                · rw [if_neg heq]
                  show hasOpenAt (Node.elem tg
                      (if (getAttr a "open").isSome then setAttr a' "open" "true" else a')
                      (morphL cs cs').1 :: (morphL fs ts).1) (0 :: j :: q) = true
                  have := morphL_keep_deep cs cs' (j :: q) hcc ho'
                  simpa [hasOpenAt, nodeAt] using this
        | succ i =>
          have hif' : i < fs.length := by simpa using Nat.lt_of_succ_lt_succ hif
          have hit' : i < ts.length := by simpa using Nat.lt_of_succ_lt_succ hit
          have ha' : alignedAt fs ts (i :: p) = true := by
            simp only [alignedAt, Bool.and_eq_true, decide_eq_true_eq]
            refine ⟨⟨⟨hab.2, hif'⟩, hit'⟩, ?_⟩
            cases p with
            | nil => rfl
            | cons j q => simpa [List.getD_cons_succ] using hrest
          have ho' : hasOpenAt fs (i :: p) = true := by
            rw [← hasOpenAt_cons_succ f]
            exact ho
          cases f with
          | text a =>
            cases t with
            | text b =>
              rw [morphL_tt]
              show hasOpenAt (Node.text b :: (morphL fs ts).1) ((i + 1) :: p) = true
              rw [hasOpenAt_cons_succ]
              exact morphL_keep_deep fs ts (i :: p) ha' ho'
            | elem tg' a' cs' => simp [compatShallow] at hab
          | elem tg a cs =>
            cases t with
            | text b => simp [compatShallow] at hab
            | elem tg' a' cs' =>
              have htg : tg = tg' := by
                have := hab.1
                simpa [compatShallow] using this
              rw [morphL_ee, if_pos htg]
              by_cases heq : nodeEqual (.elem tg a cs)
                  (.elem tg' (if (getAttr a "open").isSome then
                    setAttr a' "open" "true" else a') cs') = true
              · rw [if_pos heq]
                show hasOpenAt (Node.elem tg a cs :: (morphL fs ts).1)
                  ((i + 1) :: p) = true
                rw [hasOpenAt_cons_succ]
                exact morphL_keep_deep fs ts (i :: p) ha' ho'
              · rw [if_neg heq]
                show hasOpenAt (Node.elem tg
                    (if (getAttr a "open").isSome then setAttr a' "open" "true" else a')
                    (morphL cs cs').1 :: (morphL fs ts).1) ((i + 1) :: p) = true
                rw [hasOpenAt_cons_succ]
                exact morphL_keep_deep fs ts (i :: p) ha' ho'
termination_by pathWeight p
decreasing_by all_goals (subst_vars; simp [pathWeight]; try omega)

/-- If a child list has the shape of `cs ++ [<div></div>]`, its last entry is a
childless `div` element (its attributes are unconstrained: the sticky-open hook
may have added one). -/
theorem shapesB_last (cs : List Node) : ∀ xs : List Node,
    shapesB xs (cs ++ [Node.elem "div" [] []]) = true →
    ∃ a, xs.getLast? = some (Node.elem "div" a []) := by
  induction cs with
  | nil =>
    intro xs h
    cases xs with
    | nil => simp [shapesB] at h
    | cons x xs' =>
      cases xs' with
      | nil =>
        simp only [List.nil_append, shapesB, Bool.and_eq_true] at h
        cases x with
        | text s => simp [shapeB] at h
        | elem tg a cs'' =>
          have h1 := h.1
          simp only [shapeB, Bool.and_eq_true] at h1
          have htg : tg = "div" := eq_of_beq h1.1
          have hcs : cs'' = [] := by
            cases cs'' with
            | nil => rfl
            | cons z zs => simp [shapesB] at h1
          subst htg
          subst hcs
          exact ⟨a, rfl⟩
      | cons y ys =>
        simp only [List.nil_append, shapesB, Bool.and_eq_true] at h
        simp [shapesB] at h
  | cons c cs ih =>
    intro xs h
    cases xs with
    | nil => simp [shapesB] at h
    | cons x xs' =>
      simp only [List.cons_append, shapesB, Bool.and_eq_true] at h
      obtain ⟨a, ha⟩ := ih xs' h.2
      have hne : xs' ≠ [] := by
        intro he
        rw [he] at ha
        simp at ha
      cases xs' with
      | nil => exact absurd rfl hne
      | cons y ys => exact ⟨a, by rw [List.getLast?_cons_cons]; exact ha⟩

/-- After the manager removes a URI, the lookup for it yields `none`. -/
theorem lookupDoc_delDoc (docs : List (String × String)) (u : String) :
    lookupDoc (delDoc docs u) u = none := by
  rw [lookupDoc, delDoc]
  induction docs with
  | nil => rfl
  | cons p t ih =>
    by_cases hp : p.1 == u
    · have hb : (p.1 != u) = false := by simp [bne, hp]
      simp only [List.filter_cons, hb]
      exact ih
    · have hb : (p.1 != u) = true := by simp [bne, hp]
      have hp' : (p.1 == u) = false := by simpa using hp
      simp only [List.filter_cons, hb, if_pos, List.find?_cons, hp', cond_false]
      exact ih

/-! ## The claims -/

/-- C1, counterexample: reconciliation is not idempotent as claimed.  With an
empty live root and rendered HTML `<details open=""></details>`, the second
application of the reconciler with the same string performs one DOM mutation
and one scroll call (the sticky-open hook rewrites the `open` value to
`"true"`, which differs from the parsed value `""`). -/
theorem C1_counterexample :
    (handleMessage
        (handleMessage (.elem "div" [("id", "mdText")] []) "<details open=\"\"></details>").1
        "<details open=\"\"></details>").2 ≠ ⟨0, 0⟩ := by
  decide

/-- C1, amended: the second application of the reconciler with the same
rendered HTML performs zero DOM mutations and zero scroll-into-view calls,
provided no element of the live tree and no element of the parsed target
carries an `open` attribute (the sticky-open hook breaks idempotence
otherwise, as `C1_counterexample` shows). -/
theorem C1_idempotent_noOpen (root : Node) (text : String)
    (h1 : noOpenN root = true) (h2 : noOpenN (toTarget text) = true) :
    (handleMessage (handleMessage root text).1 text).2 = ⟨0, 0⟩ := by
  cases root with
  | text s =>
    cases htar : toTarget text with
    | text s' => simp [handleMessage, htar]
    | elem tg2 a2 tcs => simp [handleMessage, htar]
  | elem tg a cs =>
    have hcs : noOpenList cs = true := by
      simp only [noOpenN, Bool.and_eq_true] at h1
      exact h1.2
    cases htar : toTarget text with
    | text s' => simp [handleMessage, htar]
    | elem tg2 a2 tcs =>
      have htcs : noOpenList tcs = true := by
        rw [htar] at h2
        simp only [noOpenN, Bool.and_eq_true] at h2
        exact h2.2
      simp only [handleMessage, htar]
      have hexact := morphL_exact cs tcs hcs htcs
      have hnoR : noOpenList (morphL cs tcs).1 = true :=
        noOpenList_of_equal _ _ hexact htcs
      rw [morphL_noop _ _ hexact hnoR]

/-- C1, witness: the amended idempotence theorem applied at a concrete live
root and rendered HTML. -/
theorem C1_witness :
    noOpenN (.elem "div" [("id", "mdText")] []) = true ∧
    noOpenN (toTarget "<p>hi</p>") = true ∧
    (handleMessage
        (handleMessage (.elem "div" [("id", "mdText")] []) "<p>hi</p>").1 "<p>hi</p>").2
      = ⟨0, 0⟩ :=
  ⟨by decide, by decide,
    C1_idempotent_noOpen (.elem "div" [("id", "mdText")] []) "<p>hi</p>"
      (by decide) (by decide)⟩

/-- C2: open-state stickiness for every element of the live tree.  E is
located by an arbitrary path of child indexes into the live root's children;
when live and target children are positionally compatible along that path (so
the keyless walk matches E with its positional counterpart, which is what
"positional counterpart" presupposes), an E carrying the `open` attribute
still carries it after reconciliation, even though its counterpart does not
have it: an ancestor the hook skips leaves E's subtree untouched, and on every
updated ancestor the walk descends positionally until the hook copies the flag
onto E's incoming counterpart before comparing or updating. -/
theorem C2_sticky_open (tg : String) (a : List (String × String)) (cs : List Node)
    (text : String) (p : List Nat)
    (h1 : alignedAt cs (childrenOf (toTarget text)) p = true)
    (h2 : hasOpenAt cs p = true) :
    hasOpenAt (childrenOf (handleMessage (.elem tg a cs) text).1) p = true := by
  cases htar : toTarget text with
  | text s =>
    simp only [handleMessage, htar, childrenOf]
    exact h2
  | elem tg2 a2 tcs =>
    rw [htar] at h1
    simp only [childrenOf] at h1
    simp only [handleMessage, htar, childrenOf]
    exact morphL_keep_deep cs tcs p h1 h2

/-- C2, witness: a nested live `<details open="">` (inside a blockquote)
reconciled against `<blockquote><details></details></blockquote>` — whose
counterpart at path [0, 0] lacks the attribute — keeps `open` set. -/
theorem C2_witness :
    alignedAt [Node.elem "blockquote" [] [Node.elem "details" [("open", "")] []]]
        (childrenOf (toTarget "<blockquote><details></details></blockquote>"))
        [0, 0] = true ∧
    hasOpenAt [Node.elem "blockquote" [] [Node.elem "details" [("open", "")] []]]
        [0, 0] = true ∧
    hasOpenAt (childrenOf (handleMessage
        (.elem "div" [("id", "mdText")]
          [Node.elem "blockquote" [] [Node.elem "details" [("open", "")] []]])
        "<blockquote><details></details></blockquote>").1) [0, 0] = true :=
  ⟨by decide, by decide,
    C2_sticky_open "div" [("id", "mdText")]
      [Node.elem "blockquote" [] [Node.elem "details" [("open", "")] []]]
      "<blockquote><details></details></blockquote>" [0, 0] (by decide) (by decide)⟩

/-- C3, counterexample: after open("a"), close("a") the process-wide
`currentFocus` is NOT empty — the close handler never clears it, so it still
holds `"a"`. -/
theorem C3_counterexample :
    (stepEvent (fun o => o.getD "") (.closeDoc "a")
        (stepEvent (fun o => o.getD "") (.openDoc "a" "x") initState).1).1.currentFocus
      ≠ "" := by
  decide

/-- C3, amended: after open(A), close(A) the focus variable still holds A's
URI (it is never cleared on close), but the document map no longer has an
entry for it, so the broadcast-policy query for the current focus's text
returns none. -/
theorem C3_close_query_none (r : Option String → String) (s : ServerState)
    (u t : String) :
    (stepEvent r (.closeDoc u) (stepEvent r (.openDoc u t) s).1).1.currentFocus = u ∧
    focusQuery (stepEvent r (.closeDoc u) (stepEvent r (.openDoc u t) s).1).1 = none := by
  refine ⟨rfl, ?_⟩
  show lookupDoc (delDoc (setDoc s.docs u t) u) u = none
  exact lookupDoc_delDoc _ _

/-- C4, counterexample: a freshly connected viewer does receive a message
before any further document event — the connection handler immediately sends a
backfill rendered from the current focus. -/
theorem C4_counterexample :
    connectSends (fun o => o.getD "")
      (stepEvent (fun o => o.getD "") (.openDoc "a" "x") initState).1 ≠ [] := by
  decide

/-- C4, amended: a freshly connected (or reconnected) viewer is immediately
sent exactly one update message at connect time, carrying the rendering of the
current-focus lookup (a backfill of current state, with no `uri` field);
beyond that it receives only future broadcasts. -/
theorem C4_connect_backfill (r : Option String → String) (s : ServerState) :
    connectSends r s = [⟨"update", r (lookupDoc s.docs s.currentFocus), none⟩] :=
  rfl

/-- C5, counterexample: not every sent message carries a `uri` field — the
connect-time send built in `wss.on("connection")` has only `action` and
`text`. -/
theorem C5_counterexample :
    (connectMsg (fun o => o.getD "")
      (stepEvent (fun o => o.getD "") (.openDoc "a" "x") initState).1).uri = none :=
  rfl

/-- C5, amended: every broadcast sent by the open/change handlers is exactly
`{action: "update", text: rendered text of the event's document, uri: the
document's URI}` — an open event emits two such identical batches, one per
fired handler, a change event one — and the close handler sends nothing; the
connect-time message however carries only `action` and `text` (no `uri`), its
text being the rendering of the current-focus lookup. -/
theorem C5_message_shape (r : Option String → String) (s : ServerState)
    (u t : String) :
    (stepEvent r (.openDoc u t) s).2
      = s.clients.map (fun c => (c, ⟨"update", r (some t), some u⟩))
        ++ s.clients.map (fun c => (c, ⟨"update", r (some t), some u⟩)) ∧
    (stepEvent r (.changeDoc u t) s).2
      = s.clients.map (fun c => (c, ⟨"update", r (some t), some u⟩)) ∧
    (stepEvent r (.closeDoc u) s).2 = [] ∧
    connectMsg r s = ⟨"update", r (lookupDoc s.docs s.currentFocus), none⟩ :=
  ⟨rfl, rfl, rfl, rfl⟩

/-- C6: evaluation of the diagram-upgrade pass at the failing input.  A single
block whose render promise rejects is requested but never replaced, and
nothing is logged — the `try/catch` only sees synchronous throws, and the
`.then` chain has no rejection handler, so the rejection goes unhandled
(contradicting the claim that a rejecting render is caught and logged).
Moreover a synchronous throw in one block aborts the loop, so a later block is
never even requested (contradicting per-block independence). -/
theorem C6_diagram_failure_trace :
    diagramUpgrade [.rejects] = ⟨1, 0, 0, 1⟩ ∧
    diagramUpgrade [.throwsSync, .resolves] = ⟨1, 0, 1, 0⟩ :=
  ⟨rfl, rfl⟩

/-- C7, counterexample: an open event does NOT broadcast exactly once per
viewer.  `TextDocuments` fires both `onDidOpen` and `onDidChangeContent` when
a document is opened, so at a state with one connected viewer the open event
sends that viewer two identical messages. -/
theorem C7_counterexample :
    (stepEvent (fun o => o.getD "") (.openDoc "a" "x")
        (⟨"", [], [0]⟩ : ServerState)).2
      = [(0, ⟨"update", "x", some "a"⟩), (0, ⟨"update", "x", some "a"⟩)] :=
  rfl

/-- C7, amended: focus determinism.  For open(A), open(B), change(A) the
resulting focus is A (most recent event wins).  Each open event broadcasts
TWICE to every connected viewer (once per fired handler, `onDidOpen` and
`onDidChangeContent`) and the change event broadcasts once, every message
carrying that event's URI and the rendering of that document's current
text. -/
theorem C7_focus_determinism (r : Option String → String) (s : ServerState)
    (A B ta tb ta2 : String) :
    (stepEvent r (.changeDoc A ta2)
        (stepEvent r (.openDoc B tb) (stepEvent r (.openDoc A ta) s).1).1).1.currentFocus
      = A ∧
    (stepEvent r (.openDoc A ta) s).2
      = s.clients.map (fun c => (c, ⟨"update", r (some ta), some A⟩))
        ++ s.clients.map (fun c => (c, ⟨"update", r (some ta), some A⟩)) ∧
    (stepEvent r (.openDoc B tb) (stepEvent r (.openDoc A ta) s).1).2
      = s.clients.map (fun c => (c, ⟨"update", r (some tb), some B⟩))
        ++ s.clients.map (fun c => (c, ⟨"update", r (some tb), some B⟩)) ∧
    (stepEvent r (.changeDoc A ta2)
        (stepEvent r (.openDoc B tb) (stepEvent r (.openDoc A ta) s).1).1).2
      = s.clients.map (fun c => (c, ⟨"update", r (some ta2), some A⟩)) :=
  ⟨rfl, rfl, rfl, rfl⟩

/-- C8: root identity stability.  After any number of reconciliations the root
container keeps its own tag and attributes — `childrenOnly: true` means only
its child list is ever replaced. -/
theorem C8_root_identity (msgs : List String) (tg : String)
    (a : List (String × String)) (cs : List Node) :
    ∃ cs', reconcileAll (.elem tg a cs) msgs = .elem tg a cs' := by
  induction msgs generalizing cs with
  | nil => exact ⟨cs, rfl⟩
  | cons m ms ih =>
    rw [reconcileAll, List.foldl_cons]
    cases htar : toTarget m with
    | text s =>
      simp only [handleMessage, htar]
      exact ih cs
    | elem tg2 a2 tcs =>
      simp only [handleMessage, htar]
      exact ih (morphL cs tcs).1

/-- C9: a viewer connecting before any document was ever opened makes the
connection handler call the markdown renderer on the `none`/`undefined` result
of `documents.get(currentFocus)?.getText()` — the branch is not guarded and is
reachable right at the public connect interface. -/
theorem C9_connect_render_arg_none (r : Option String → String) :
    lookupDoc initState.docs initState.currentFocus = none ∧
    connectMsg r initState = ⟨"update", r none, none⟩ :=
  ⟨rfl, rfl⟩

/-- C10, counterexample: the "live root's last child is the extra empty div"
conclusion fails for a message whose text carries a stray close tag: with text
`"</div>x"` the stray `</div>` closes the wrapper, morphdom's `toElement` takes
only the first parsed node (an empty div), and reconciliation empties the root
— afterwards the root has no last child at all. -/
theorem C10_counterexample :
    childrenOf (handleMessage (.elem "div" [("id", "mdText")] [.elem "p" [] []])
      "</div>x").1 = [] ∧
    (childrenOf (handleMessage (.elem "div" [("id", "mdText")] [.elem "p" [] []])
      "</div>x").1).getLast? = none :=
  ⟨rfl, rfl⟩

/-- C10, amended: the reconciler diffs against `"<div>" + text + "<div>"`,
whose terminating tag is a second opening div.  Whenever this wrapped string
parses to a single root div whose children are the rendered content followed by
the auto-closed empty div (which holds for every well-formed rendered
fragment), the live root after reconciliation has exactly one child more than
the rendered content, and its last child is a childless div element (not
present in the rendered HTML; its attributes may include a sticky `open`). -/
theorem C10_trailing_div (tg : String) (a : List (String × String)) (rcs : List Node)
    (text : String) (cs : List Node)
    (h : parseFragment (wrapHtml text) = [.elem "div" [] (cs ++ [.elem "div" [] []])]) :
    (childrenOf (handleMessage (.elem tg a rcs) text).1).length = cs.length + 1 ∧
    ∃ a', (childrenOf (handleMessage (.elem tg a rcs) text).1).getLast?
      = some (.elem "div" a' []) := by
  have htar : toTarget text = .elem "div" [] (cs ++ [.elem "div" [] []]) := by
    rw [toTarget, h]; rfl
  simp only [handleMessage, htar, childrenOf]
  have hs := morphL_shape rcs (cs ++ [.elem "div" [] []])
  exact ⟨by rw [shapesB_length _ _ hs]; simp, shapesB_last cs _ hs⟩

/-- C10, witness: the amended theorem at text `"<p>x</p>"` against an empty
live root. -/
theorem C10_witness :
    parseFragment (wrapHtml "<p>x</p>")
      = [.elem "div" [] ([Node.elem "p" [] [.text "x"]] ++ [.elem "div" [] []])] ∧
    ((childrenOf (handleMessage (.elem "div" [("id", "mdText")] []) "<p>x</p>").1).length
        = [Node.elem "p" [] [.text "x"]].length + 1 ∧
      ∃ a', (childrenOf
          (handleMessage (.elem "div" [("id", "mdText")] []) "<p>x</p>").1).getLast?
        = some (.elem "div" a' [])) :=
  ⟨rfl, C10_trailing_div "div" [("id", "mdText")] [] "<p>x</p>"
    [Node.elem "p" [] [.text "x"]] rfl⟩
